import Mathlib

/-!
Verification of the n-gram author-classification baseline (src/ngram.py).

The Python source is shallowly embedded below.  Conventions used throughout:

* Python ints are `ℤ`/`ℕ`; the exact rational values of the floating-point
  computations are `ℚ`.
* A Python dict is an insertion-ordered association list; lookup returns the
  value at the first entry whose key matches, and `none` models a `KeyError`.
* A fallible computation returns an `Option`; `none` models the exception or
  NaN produced by the corresponding Python expression (documented per
  definition).
-/

set_option maxHeartbeats 1000000

/-- `n_gram(text, n)` from the source: `zip(*[text[i:] for i in range(n)])`,
the sliding windows of `n` consecutive tokens.  `zip` truncates at the
shortest slice `text[n-1:]`, so there are `len(text) - n + 1` windows when
`len(text) ≥ n` and none otherwise.  For `n = 0`, `zip()` of no iterables is
empty. -/
def n_gram (text : List String) (n : ℕ) : List (List String) :=
  if n = 0 then []
  else (List.range (text.length + 1 - n)).map (fun i => (text.drop i).take n)

/-- `all_grams(text, n)` from the source: starting from the empty list,
extend with the `(i+1)`-grams for `i in range(n)`, i.e. the 1-grams, then the
2-grams, ..., then the `n`-grams, in that order.  The Python default `n = 3`
is passed explicitly at every call site below. -/
def all_grams (text : List String) (n : ℕ) : List (List String) :=
  ((List.range n).map (fun i => n_gram text (i + 1))).flatten

/-- Python dict lookup `table[gram]` on the association-list model of the
index table: the value of the first entry whose key equals the gram, `none`
when the gram is absent (`KeyError`). -/
def tableLookup (table : List (List String × ℕ)) (gram : List String) : Option ℕ :=
  (table.find? (fun p => p.1 == gram)).map (fun p => p.2)

/-- `enumerate(grams)` starting at `n`: pairs each gram with consecutive
indices `n, n + 1, ...`. -/
def indexPairs : List (List String) → ℕ → List (List String × ℕ)
  | [], _ => []
  | g :: gs, n => (g, n) :: indexPairs gs (n + 1)

/-- `build_index_table(words)` from the source: `set(all_grams(words))`
deduplicates the extracted n-grams (the iteration order of a Python set is
unspecified; it is modeled by `List.dedup`), then `enumerate` assigns each
distinct gram a unique consecutive index starting at 0. -/
def build_index_table (words : List String) : List (List String × ℕ) :=
  indexPairs ((all_grams words 3).dedup) 0

/-- One iteration of the vector-filling loop of `build_title_vector`:
`index = table[gram]` (`KeyError`, modeled `none`, when the gram is absent
from the table), then `vector[index] += 1` (`IndexError`, modeled `none`,
when the index is out of range; unreachable for tables produced by
`build_index_table`). -/
def btvStep (table : List (List String × ℕ)) (vector : List ℤ) (gram : List String) :
    Option (List ℤ) :=
  match tableLookup table gram with
  | none => none
  | some index =>
      if index < vector.length then some (vector.set index (vector.getD index 0 + 1))
      else none

/-- `build_title_vector(table, words)` from the source:
`vector = [0]*len(table)`, then for every gram of `all_grams(words)`
increment `vector[table[gram]]`. -/
def build_title_vector (table : List (List String × ℕ)) (words : List String) :
    Option (List ℤ) :=
  (all_grams words 3).foldlM (btvStep table) (List.replicate table.length 0)

/-- `dot(v, w)` (numpy) on two integer count vectors. -/
def dotZ (v w : List ℤ) : ℤ :=
  (List.zipWith (fun a b => a * b) v w).sum

/-- `sum(map(lambda x: x**2, v))`, the squared Euclidean norm, as an exact
rational. -/
def sumSqQ (v : List ℤ) : ℚ :=
  ((v.map (fun x => x * x)).sum : ℤ)

/-- Computable model of `math.sqrt` on the nonnegative rationals arising as
sums of squares of integer counts: exact (equal to the float value) whenever
the numerator and denominator of the argument are perfect squares — in
particular `pysqrt 0 = 0`, `pysqrt 1 = 1`, and `pysqrt q > 0` for `q > 0`,
the only facts about its values used by any theorem in this file. -/
def pysqrt (q : ℚ) : ℚ :=
  (Nat.sqrt q.num.natAbs : ℚ) / (Nat.sqrt q.den : ℚ)

/-- `cosine_similarity(category_vector, title_vector)` from the source:
`inner / (dist_category * dist_title)`.  When either vector is all-zero its
Euclidean norm is `0.0`, the numerator (a dot product against an all-zero
vector) is necessarily `0`, and numpy evaluates `0 / 0.0` to NaN — silently,
apart from a `RuntimeWarning`.  That NaN outcome is modeled by `none`; the
source contains no zero-norm guard and no error of its own. -/
def cosine_similarity (category_vector title_vector : List ℤ) : Option ℚ :=
  let inner := dotZ category_vector title_vector
  let dist_category := pysqrt (sumSqQ category_vector)
  let dist_title := pysqrt (sumSqQ title_vector)
  if dist_category * dist_title = 0 then none
  else some ((inner : ℚ) / (dist_category * dist_title))

/-- A scored candidate: a `(cosine, user)` tuple.  The score is `none` when
the similarity computation produced NaN. -/
abbrev SP := Option ℚ × String

/-- Python `==` between two float scores: NaN compares unequal to
everything, including itself. -/
def pyEqScore : Option ℚ → Option ℚ → Bool
  | some a, some b => decide (a = b)
  | _, _ => false

/-- Python `>` between two float scores: every ordered comparison against
NaN is `False`. -/
def pyGtScore : Option ℚ → Option ℚ → Bool
  | some a, some b => decide (b < a)
  | _, _ => false

/-- Python `<` on two lists of characters: lexicographic by Unicode code
point, with a strict prefix ordered first. -/
def charListLtB : List Char → List Char → Bool
  | [], [] => false
  | [], _ :: _ => true
  | _ :: _, [] => false
  | c :: cs, d :: ds =>
      if c.toNat < d.toNat then true
      else if d.toNat < c.toNat then false
      else charListLtB cs ds

/-- Python `<` on two strings: lexicographic comparison of their character
sequences by Unicode code point. -/
def strLtB (a b : String) : Bool :=
  charListLtB a.data b.data

/-- Python `>` on `(score, user)` tuples: lexicographic — the scores are
compared with `==` first, and only on score equality do the user strings
decide. -/
def spGt (p q : SP) : Bool :=
  if pyEqScore p.1 q.1 then strLtB q.2 p.2 else pyGtScore p.1 q.1

/-- One step of Python `max` over an iterable: the running result is
replaced exactly when the next item compares strictly greater. -/
def pymaxStep (acc item : SP) : SP :=
  if spGt item acc then item else acc

/-- Python `max` over a list of `(score, user)` tuples; `none` models the
`ValueError` raised on an empty sequence. -/
def pymax : List SP → Option SP
  | [] => none
  | h :: t => some (t.foldl pymaxStep h)

/-- `all_cosines(category_vector_table, title_vector)` from the source: one
`(cosine, user)` tuple per user, in the stable insertion order of the
category-vector dict. -/
def all_cosines (category_vector_table : List (String × List ℤ)) (title_vector : List ℤ) :
    List SP :=
  category_vector_table.map (fun p => (cosine_similarity p.2 title_vector, p.1))

/-- `classify(category_vector_table, title_vector, predicate)` from the
source: apply the selection predicate to the full scored list. -/
def classify (category_vector_table : List (String × List ℤ)) (title_vector : List ℤ)
    (predicate : List SP → Option (List SP)) : Option (List SP) :=
  predicate (all_cosines category_vector_table title_vector)

/-- The default predicate of `classify`, `lambda x: [max(x)]`. -/
def default_predicate (x : List SP) : Option (List SP) :=
  (pymax x).map (fun m => [m])

/-- Python `==` between a `(score, user)` tuple and a float: always `False`
(a tuple is never equal to a number). -/
def tupleEqNum (_t : SP) (_s : Option ℚ) : Bool := false

/-- Python `==` between a `(score, user)` tuple and a str: always `False`
(a tuple is never equal to a string). -/
def tupleEqStr (_t : SP) (_u : String) : Bool := false

/-- `set(x)` for a list of `(score, user)` tuples: deduplication; the
unspecified hash order is modeled by `List.dedup`. -/
def pyset (x : List SP) : List SP := x.dedup

/-- `top2(x)` from the source: `x1 = max(x)`, then
`x2 = max(set(x) - set(x1))`, returning `[x1, x2]`.  `set(x1)` iterates over
the tuple `x1` itself, producing the two-element set holding `x1`'s score (a
float) and `x1`'s user (a str); the difference removes from `set(x)` every
tuple equal to that float or to that str.  `none` models the `ValueError` of
`max` on an empty sequence. -/
def top2 (x : List SP) : Option (List SP) := do
  let x1 ← pymax x
  let x2 ← pymax ((pyset x).filter
    (fun t => !(tupleEqNum t x1.1) && !(tupleEqStr t x1.2)))
  pure [x1, x2]

/-- The dict mutation of the first loop of `user_titles_table`:
`if user not in table: table[user] = []` followed by
`table[user].append(title)`.  On the unique-keyed association-list model of
a dict this updates the entry in place when the user is present and appends
a new entry at the end otherwise. -/
def addTitle : List (String × List String) → String → String → List (String × List String)
  | [], user, title => [(user, [title])]
  | (k, l) :: t, user, title =>
      if k == user then (k, l ++ [title]) :: t else (k, l) :: addTitle t user title

/-- Dict lookup on the intermediate user → list-of-titles table. -/
def lookupL (t : List (String × List String)) (u : String) : Option (List String) :=
  (t.find? (fun p => p.1 == u)).map (fun p => p.2)

/-- Dict lookup on the final user → concatenated-title table. -/
def lookupTitle (t : List (String × String)) (u : String) : Option String :=
  (t.find? (fun p => p.1 == u)).map (fun p => p.2)

/-- `user_titles_table(raw_titles, raw_users)` from the source: group the
zipped `(title, user)` pairs into per-user title lists (first loop), then
join each user's titles with `" ".join` (second loop). -/
def user_titles_table (raw_titles raw_users : List String) : List (String × String) :=
  let pairs := List.zip raw_titles raw_users
  let table := pairs.foldl (fun t p => addTitle t p.2 p.1) []
  table.map (fun p => (p.1, String.intercalate " " p.2))

/-- The four confusion counters mutated by the evaluation loop of
`__main__`. -/
structure Tally where
  true_positive : ℕ
  true_negative : ℕ
  false_positive : ℕ
  false_negative : ℕ
deriving DecidableEq, Repr

/-- One iteration of the evaluation loop of `__main__` (lines 176–189): for
each predicted user equal to the true `user` increment `true_positive`, else
`false_positive`; then for each user of `set(val_users) - set(predictions)`
equal to `user` increment `false_negative`, else `true_negative`. -/
def evaluate_step (t : Tally) (user : String) (predictions val_users : List String) : Tally :=
  let t1 := predictions.foldl
    (fun acc p =>
      if p == user then { acc with true_positive := acc.true_positive + 1 }
      else { acc with false_positive := acc.false_positive + 1 }) t
  let not_predictions := val_users.dedup.filter (fun u => !(predictions.contains u))
  not_predictions.foldl
    (fun acc np =>
      if np == user then { acc with false_negative := acc.false_negative + 1 }
      else { acc with true_negative := acc.true_negative + 1 }) t1

/-- The metric computations of `print_stats` from the source (the printing
is omitted): `precision = tp / (tp + fp)`, `recall = tp / (tp + fn)`,
`f1_score = 2 * ((precision*recall) / (precision+recall))`, in that order.
Python division of two ints raises an unhandled `ZeroDivisionError` when the
denominator is zero, modeled by `none`; the source has no guard and reports
no sentinel value. -/
def print_stats (true_positive true_negative false_negative false_positive total : ℕ) :
    Option (ℚ × ℚ × ℚ) :=
  if (true_positive : ℚ) + (false_positive : ℚ) = 0 then none else
  let precision : ℚ := (true_positive : ℚ) / ((true_positive : ℚ) + (false_positive : ℚ))
  if (true_positive : ℚ) + (false_negative : ℚ) = 0 then none else
  let recallM : ℚ := (true_positive : ℚ) / ((true_positive : ℚ) + (false_negative : ℚ))
  if precision + recallM = 0 then none else
  some (precision, recallM, 2 * ((precision * recallM) / (precision + recallM)))

/-! ### Order lemmas for the Python comparisons -/

theorem charListLtB_irrefl (l : List Char) : charListLtB l l = false := by
  induction l with
  | nil => rfl
  | cons c cs ih => simp [charListLtB, ih]

theorem charListLtB_trans (a : List Char) : ∀ b c, charListLtB a b = true →
    charListLtB b c = true → charListLtB a c = true := by
  induction a with
  | nil =>
    intro b c h1 h2
    cases b with
    | nil => simp [charListLtB] at h1
    | cons y ys =>
      cases c with
      | nil => simp [charListLtB] at h2
      | cons z zs => rfl
  | cons x xs ih =>
    intro b c h1 h2
    cases b with
    | nil => simp [charListLtB] at h1
    | cons y ys =>
      cases c with
      | nil => simp [charListLtB] at h2
      | cons z zs =>
        simp only [charListLtB] at h1 h2 ⊢
        split_ifs at h1 h2 ⊢ <;>
          first
          | rfl
          | (exfalso; omega)
          | (exact ih ys zs h1 h2)
          | simp_all

theorem charListLtB_ge_trans (a : List Char) : ∀ b c, charListLtB a b = false →
    charListLtB b c = false → charListLtB a c = false := by
  induction a with
  | nil =>
    intro b c h1 h2
    cases b with
    | nil =>
      cases c with
      | nil => rfl
      | cons z zs => simp [charListLtB] at h2
    | cons y ys => simp [charListLtB] at h1
  | cons x xs ih =>
    intro b c h1 h2
    cases b with
    | nil =>
      cases c with
      | nil => rfl
      | cons z zs => simp [charListLtB] at h2
    | cons y ys =>
      cases c with
      | nil => rfl
      | cons z zs =>
        simp only [charListLtB] at h1 h2 ⊢
        split_ifs at h1 h2 ⊢ <;>
          first
          | rfl
          | (exfalso; omega)
          | (exact ih ys zs h1 h2)
          | simp_all

theorem charListLtB_asymm_eq (a : List Char) : ∀ b, charListLtB a b = false →
    charListLtB b a = false → a = b := by
  induction a with
  | nil =>
    intro b h1 _
    cases b with
    | nil => rfl
    | cons y ys => simp [charListLtB] at h1
  | cons x xs ih =>
    intro b h1 h2
    cases b with
    | nil => simp [charListLtB] at h2
    | cons y ys =>
      simp only [charListLtB] at h1 h2
      by_cases hxy : x.toNat < y.toNat
      · rw [if_pos hxy] at h1
        simp at h1
      · rw [if_neg hxy] at h1
        by_cases hyx : y.toNat < x.toNat
        · rw [if_pos hyx] at h2
          simp at h2
        · rw [if_neg hyx] at h1
          rw [if_neg hyx, if_neg hxy] at h2
          have hchar : x = y := by
            have hn : x.toNat = y.toNat := by omega
            have h3 := congrArg Char.ofNat hn
            rwa [Char.ofNat_toNat, Char.ofNat_toNat] at h3
          rw [hchar]
          exact congrArg (y :: ·) (ih ys h1 h2)

theorem strLtB_irrefl (s : String) : strLtB s s = false :=
  charListLtB_irrefl s.data

theorem strLtB_trans {a b c : String} (h1 : strLtB a b = true) (h2 : strLtB b c = true) :
    strLtB a c = true :=
  charListLtB_trans a.data b.data c.data h1 h2

theorem strLtB_ge_trans {a b c : String} (h1 : strLtB a b = false) (h2 : strLtB b c = false) :
    strLtB a c = false :=
  charListLtB_ge_trans a.data b.data c.data h1 h2

theorem strLtB_asymm_eq {a b : String} (h1 : strLtB a b = false) (h2 : strLtB b a = false) :
    a = b := by
  have hd : a.data = b.data := charListLtB_asymm_eq a.data b.data h1 h2
  cases a
  cases b
  exact congrArg String.mk (by simpa using hd)

theorem spGt_irrefl (p : SP) : spGt p p = false := by
  unfold spGt
  cases h : p.1 with
  | none => simp [pyEqScore, pyGtScore]
  | some a => simp [pyEqScore, pyGtScore, strLtB_irrefl]

theorem spGt_from_none {p q : SP} (h : p.1 = none) : spGt p q = false := by
  unfold spGt
  rw [h]
  cases q.1 <;> simp [pyEqScore, pyGtScore]

theorem spGt_to_none {p q : SP} (h : q.1 = none) : spGt p q = false := by
  unfold spGt
  rw [h]
  cases p.1 <;> simp [pyEqScore, pyGtScore]

theorem spGt_some_of_gt {p q : SP} (h : spGt p q = true) :
    (∃ a, p.1 = some a) ∧ ∃ b, q.1 = some b := by
  cases hp : p.1 with
  | none => rw [spGt_from_none hp] at h; exact absurd h (by simp)
  | some a =>
    cases hq : q.1 with
    | none => rw [spGt_to_none hq] at h; exact absurd h (by simp)
    | some b => exact ⟨⟨a, rfl⟩, ⟨b, rfl⟩⟩

theorem spGt_char {p q : SP} {x y : ℚ} (hp : p.1 = some x) (hq : q.1 = some y) :
    spGt p q = if x = y then strLtB q.2 p.2 else decide (y < x) := by
  unfold spGt
  rw [hp, hq]
  simp [pyEqScore, pyGtScore]

theorem spGt_trans {p q r : SP} (h1 : spGt p q = true) (h2 : spGt q r = true) :
    spGt p r = true := by
  obtain ⟨⟨x, hp⟩, -⟩ := spGt_some_of_gt h1
  obtain ⟨⟨y, hq⟩, ⟨z, hr⟩⟩ := spGt_some_of_gt h2
  rw [spGt_char hp hq] at h1
  rw [spGt_char hq hr] at h2
  rw [spGt_char hp hr]
  by_cases hxy : x = y
  · subst hxy
    rw [if_pos rfl] at h1
    by_cases hxz : x = z
    · subst hxz
      rw [if_pos rfl] at h2 ⊢
      exact strLtB_trans h2 h1
    · rw [if_neg hxz] at h2
      rw [if_neg hxz]
      exact h2
  · rw [if_neg hxy] at h1
    have hyx : y < x := of_decide_eq_true h1
    have hzx : z < x := by
      by_cases hyz : y = z
      · exact hyz ▸ hyx
      · rw [if_neg hyz] at h2
        exact lt_trans (of_decide_eq_true h2) hyx
    rw [if_neg (ne_of_gt hzx)]
    exact decide_eq_true hzx

theorem spGt_false_trans {p q r : SP} {x y z : ℚ} (hp : p.1 = some x) (hq : q.1 = some y)
    (hr : r.1 = some z) (h1 : spGt p q = false) (h2 : spGt q r = false) :
    spGt p r = false := by
  rw [spGt_char hp hq] at h1
  rw [spGt_char hq hr] at h2
  rw [spGt_char hp hr]
  by_cases hxy : x = y
  · subst hxy
    rw [if_pos rfl] at h1
    by_cases hxz : x = z
    · subst hxz
      rw [if_pos rfl] at h2 ⊢
      exact strLtB_ge_trans h2 h1
    · rw [if_neg hxz] at h2 ⊢
      exact h2
  · rw [if_neg hxy] at h1
    have hxley : x < y := lt_of_le_of_ne (not_lt.mp (of_decide_eq_false h1)) hxy
    have hxltz : x < z := by
      by_cases hyz : y = z
      · exact hyz ▸ hxley
      · rw [if_neg hyz] at h2
        exact lt_of_lt_of_le hxley (not_lt.mp (of_decide_eq_false h2))
    rw [if_neg (ne_of_lt hxltz)]
    exact decide_eq_false (lt_asymm hxltz)

theorem spGt_antisymm {p q : SP} {x y : ℚ} (hp : p.1 = some x) (hq : q.1 = some y)
    (h1 : spGt p q = false) (h2 : spGt q p = false) : p = q := by
  rw [spGt_char hp hq] at h1
  rw [spGt_char hq hp] at h2
  by_cases hxy : x = y
  · subst hxy
    rw [if_pos rfl] at h1 h2
    have h2nd : p.2 = q.2 := strLtB_asymm_eq h2 h1
    have h1st : p.1 = q.1 := by rw [hp, hq]
    exact Prod.ext h1st h2nd
  · exfalso
    rw [if_neg hxy] at h1
    rw [if_neg (fun hc => hxy hc.symm)] at h2
    exact hxy (le_antisymm (not_lt.mp (of_decide_eq_false h1))
      (not_lt.mp (of_decide_eq_false h2)))

theorem foldl_stuck_none (t : List SP) : ∀ acc : SP, acc.1 = none →
    t.foldl pymaxStep acc = acc := by
  induction t with
  | nil => intro acc _; rfl
  | cons a t ih =>
    intro acc hacc
    have hstep : pymaxStep acc a = acc := by
      simp [pymaxStep, spGt_to_none hacc]
    simpa [hstep] using ih acc hacc

theorem foldl_pymax_spec (t : List SP) : ∀ acc : SP,
    t.foldl pymaxStep acc ∈ acc :: t ∧
    spGt acc (t.foldl pymaxStep acc) = false ∧
    ∀ p ∈ t, spGt p (t.foldl pymaxStep acc) = false := by
  induction t with
  | nil =>
    intro acc
    exact ⟨List.mem_cons_self acc [], spGt_irrefl acc, by simp⟩
  | cons a t ih =>
    intro acc
    have hfold : (a :: t).foldl pymaxStep acc = t.foldl pymaxStep (pymaxStep acc a) := rfl
    by_cases h : spGt a acc = true
    · have hstep : pymaxStep acc a = a := by simp [pymaxStep, h]
      rw [hfold, hstep]
      obtain ⟨mem1, hB1, hA1⟩ := ih a
      have hBacc : spGt acc (t.foldl pymaxStep a) = false := by
        cases hacc2 : spGt acc (t.foldl pymaxStep a) with
        | false => rfl
        | true =>
          have hcon := spGt_trans h hacc2
          rw [hcon] at hB1
          exact absurd hB1 (by simp)
      refine ⟨?_, hBacc, ?_⟩
      · rcases List.mem_cons.mp mem1 with h1 | h1
        · rw [h1]
          exact List.mem_cons_of_mem acc (List.mem_cons_self a t)
        · exact List.mem_cons_of_mem acc (List.mem_cons_of_mem a h1)
      · intro p hp
        rcases List.mem_cons.mp hp with rfl | hp2
        · exact hB1
        · exact hA1 p hp2
    · rw [Bool.not_eq_true] at h
      have hstep : pymaxStep acc a = acc := by simp [pymaxStep, h]
      rw [hfold, hstep]
      obtain ⟨mem1, hB1, hA1⟩ := ih acc
      refine ⟨?_, hB1, ?_⟩
      · rcases List.mem_cons.mp mem1 with h1 | h1
        · rw [h1]
          exact List.mem_cons_self acc (a :: t)
        · exact List.mem_cons_of_mem acc (List.mem_cons_of_mem a h1)
      · intro p hp
        rcases List.mem_cons.mp hp with rfl | hp2
        · cases hp1 : p.1 with
          | none => exact spGt_from_none hp1
          | some x =>
            cases hacc1 : acc.1 with
            | none =>
              rw [foldl_stuck_none t acc hacc1]
              exact h
            | some y =>
              cases hr1 : (t.foldl pymaxStep acc).1 with
              | none => exact spGt_to_none hr1
              | some z => exact spGt_false_trans hp1 hacc1 hr1 h hB1
        · exact hA1 p hp2

theorem pymax_spec {l : List SP} {m : SP} (h : pymax l = some m) :
    m ∈ l ∧ ∀ p ∈ l, spGt p m = false := by
  cases l with
  | nil => simp [pymax] at h
  | cons a t =>
    obtain ⟨mem1, hB1, hA1⟩ := foldl_pymax_spec t a
    have hm : t.foldl pymaxStep a = m := by
      have : some (t.foldl pymaxStep a) = some m := h
      exact Option.some.inj this
    rw [hm] at mem1 hB1 hA1
    refine ⟨mem1, ?_⟩
    intro p hp
    rcases List.mem_cons.mp hp with rfl | hp2
    · exact hB1
    · exact hA1 p hp2

theorem pymax_isSome {l : List SP} (h : l ≠ []) : ∃ m, pymax l = some m := by
  cases l with
  | nil => exact absurd rfl h
  | cons a t => exact ⟨t.foldl pymaxStep a, rfl⟩

/-! ### Similarity lemmas -/

theorem pysqrt_eq_zero_iff (q : ℚ) : pysqrt q = 0 ↔ q = 0 := by
  unfold pysqrt
  rw [div_eq_zero_iff]
  constructor
  · rintro (h1 | h1)
    · have h2 : Nat.sqrt q.num.natAbs = 0 := by exact_mod_cast h1
      exact Rat.num_eq_zero.mp (Int.natAbs_eq_zero.mp (Nat.sqrt_eq_zero.mp h2))
    · exfalso
      have h2 : Nat.sqrt q.den = 0 := by exact_mod_cast h1
      exact q.den_nz (Nat.sqrt_eq_zero.mp h2)
  · intro h
    subst h
    left
    simp

theorem cosine_similarity_none {v w : List ℤ} (h : sumSqQ v = 0 ∨ sumSqQ w = 0) :
    cosine_similarity v w = none := by
  unfold cosine_similarity
  have hz : pysqrt (sumSqQ v) * pysqrt (sumSqQ w) = 0 := by
    rcases h with h | h <;> rw [h] <;>
      simp [(pysqrt_eq_zero_iff 0).mpr rfl]
  simp [hz]

theorem cosine_similarity_some {v w : List ℤ} (hv : sumSqQ v ≠ 0) (hw : sumSqQ w ≠ 0) :
    cosine_similarity v w
      = some ((dotZ v w : ℚ) / (pysqrt (sumSqQ v) * pysqrt (sumSqQ w))) := by
  unfold cosine_similarity
  have hz : pysqrt (sumSqQ v) * pysqrt (sumSqQ w) ≠ 0 :=
    mul_ne_zero (fun hc => hv ((pysqrt_eq_zero_iff _).mp hc))
      (fun hc => hw ((pysqrt_eq_zero_iff _).mp hc))
  simp [hz]

theorem cosQ_10_10 : cosine_similarity [1, 0] [1, 0] = some 1 := by
  rw [cosine_similarity_some (by norm_num [sumSqQ]) (by norm_num [sumSqQ])]
  norm_num [dotZ, sumSqQ, pysqrt, Rat.num_one, Rat.den_one, Nat.sqrt_one]

theorem cosQ_01_10 : cosine_similarity [0, 1] [1, 0] = some 0 := by
  rw [cosine_similarity_some (by norm_num [sumSqQ]) (by norm_num [sumSqQ])]
  norm_num [dotZ, sumSqQ, pysqrt]

theorem cosQ_1_1 : cosine_similarity [1] [1] = some 1 := by
  rw [cosine_similarity_some (by norm_num [sumSqQ]) (by norm_num [sumSqQ])]
  norm_num [dotZ, sumSqQ, pysqrt, Rat.num_one, Rat.den_one, Nat.sqrt_one]

theorem scored_eval :
    all_cosines [("A", [1, 0]), ("B", [0, 1])] [1, 0] = [(some 1, "A"), (some 0, "B")] := by
  simp [all_cosines, cosQ_10_10, cosQ_01_10]

theorem pymax_eval : pymax [((some 1 : Option ℚ), "A"), (some 0, "B")] = some (some 1, "A") := by
  have hgt : spGt ((some 0 : Option ℚ), "B") (some 1, "A") = false := by
    rw [spGt_char rfl rfl]
    norm_num
  simp [pymax, pymaxStep, hgt]

theorem top2_eval :
    top2 [((some 1 : Option ℚ), "A"), (some 0, "B")]
      = some [(some 1, "A"), (some 1, "A")] := by
  have hnodup : List.Nodup [((some 1 : Option ℚ), "A"), (some 0, "B")] := by
    norm_num
  unfold top2
  rw [pymax_eval]
  simp only [tupleEqNum, tupleEqStr, Bool.not_false, Bool.and_self, List.filter_true,
    pyset, List.dedup_eq_self.mpr hnodup, Option.bind_eq_bind, Option.some_bind,
    pymax_eval]
  rfl

/-! ### Claims C1, C2, C3 -/

/-- Claim C1 (code bug, failing as specified): the top-2 selection of the
source never returns two distinct users.  `set(x1)` holds a float and a str,
neither of which equals any `(score, user)` tuple of `set(x)`, so the set
difference removes nothing and `max` is taken twice over the same
collection: on every scored list whose scores are all defined (no NaN),
`top2` returns the same maximal pair twice; in particular the scored list
`[(1.0, "A"), (0.0, "B")]` produced by the category table
`{"A": [1,0], "B": [0,1]}` and query `[1,0]` yields `[("A"), ("A")]` —
duplicate users, never two distinct ones. -/
theorem c1_top2_duplicates :
    (∀ x : List SP, (∀ p ∈ x, ∃ q, p.1 = some q) →
      ∀ l, top2 x = some l → ∃ m, l = [m, m]) ∧
    classify [("A", [1, 0]), ("B", [0, 1])] [1, 0] top2
      = some [(some 1, "A"), (some 1, "A")] := by
  constructor
  · intro x hsome l h
    unfold top2 at h
    simp only [tupleEqNum, tupleEqStr, Bool.not_false, Bool.and_self, List.filter_true,
      Option.bind_eq_bind, Option.bind_eq_some] at h
    obtain ⟨x1, hx1, h⟩ := h
    obtain ⟨x2, hx2, h2⟩ := h
    obtain ⟨hmem1, hmax1⟩ := pymax_spec hx1
    obtain ⟨hmem2, hmax2⟩ := pymax_spec hx2
    have hmem2x : x2 ∈ x := List.mem_dedup.mp hmem2
    have h21 : spGt x2 x1 = false := hmax1 x2 hmem2x
    have h12 : spGt x1 x2 = false := hmax2 x1 (List.mem_dedup.mpr hmem1)
    obtain ⟨q1, hq1⟩ := hsome x1 hmem1
    obtain ⟨q2, hq2⟩ := hsome x2 hmem2x
    have he : x1 = x2 := spGt_antisymm hq1 hq2 h12 h21
    have hl : l = [x1, x2] := (Option.some.inj h2).symm
    exact ⟨x1, by rw [hl, he]⟩
  · show top2 (all_cosines [("A", [1, 0]), ("B", [0, 1])] [1, 0]) = _
    rw [scored_eval, top2_eval]

/-- Witness for the universally quantified part of the C1 theorem at the
concrete scored list `[(1.0, "A"), (0.0, "B")]`. -/
theorem c1_witness :
    (∀ p ∈ [((some 1 : Option ℚ), "A"), (some 0, "B")], ∃ q, p.1 = some q) ∧
    ∃ m, [((some 1 : Option ℚ), "A"), (some 1, "A")] = [m, m] := by
  have hsome : ∀ p ∈ [((some 1 : Option ℚ), "A"), (some 0, "B")], ∃ q, p.1 = some q := by
    intro p hp
    rcases List.mem_cons.mp hp with rfl | hp2
    · exact ⟨1, rfl⟩
    · rcases List.mem_cons.mp hp2 with rfl | hp3
      · exact ⟨0, rfl⟩
      · simp at hp3
  exact ⟨hsome, c1_top2_duplicates.1 [(some 1, "A"), (some 0, "B")] hsome
    [(some 1, "A"), (some 1, "A")] top2_eval⟩

/-- Claim C2 (corrected): with the default top-1 predicate `lambda x: [max(x)]`,
`classify` on a non-empty category table of nonzero vectors and a nonzero
query returns the singleton `[m]` where `m` is a member of the scored list
that no entry beats under Python tuple comparison; every score is defined
and `m`'s score is maximal.  (Ties at the maximal score are broken by the
tuple comparison — i.e. by the user identifiers — not by iteration order;
see the counterexample.) -/
theorem c2_top1_max (table : List (String × List ℤ)) (tv : List ℤ)
    (h1 : table ≠ []) (h2 : ∀ p ∈ table, sumSqQ p.2 ≠ 0) (h3 : sumSqQ tv ≠ 0) :
    ∃ m, classify table tv default_predicate = some [m] ∧
      m ∈ all_cosines table tv ∧
      (∀ p ∈ all_cosines table tv, spGt p m = false) ∧
      (∀ p ∈ all_cosines table tv, ∃ q, p.1 = some q) ∧
      ∀ p ∈ all_cosines table tv, ∀ qp qm, p.1 = some qp → m.1 = some qm → qp ≤ qm := by
  have hne : all_cosines table tv ≠ [] := by
    unfold all_cosines
    simpa using h1
  obtain ⟨m, hm⟩ := pymax_isSome hne
  obtain ⟨hmem, hmax⟩ := pymax_spec hm
  have hsome : ∀ p ∈ all_cosines table tv, ∃ q, p.1 = some q := by
    intro p hp
    unfold all_cosines at hp
    obtain ⟨pr, hpr, rfl⟩ := List.mem_map.mp hp
    exact ⟨_, congrArg Prod.fst (congrArg (fun c => (c, pr.1))
      (cosine_similarity_some (h2 pr hpr) h3))⟩
  refine ⟨m, ?_, hmem, hmax, hsome, ?_⟩
  · unfold classify default_predicate
    rw [hm]
    rfl
  · intro p hp qp qm hqp hqm
    have hgt := hmax p hp
    rw [spGt_char hqp hqm] at hgt
    by_cases he : qp = qm
    · exact le_of_eq he
    · rw [if_neg he] at hgt
      exact not_lt.mp (of_decide_eq_false hgt)

/-- Witness for the C2 theorem at the one-user table `{"A": [1]}` and query
`[1]`. -/
theorem c2_witness :
    ([(("A" : String), [(1 : ℤ)])] ≠ [] ∧ sumSqQ [1] ≠ 0) ∧
    ∃ m, classify [("A", [1])] [1] default_predicate = some [m] ∧
      m ∈ all_cosines [("A", [1])] [1] ∧
      (∀ p ∈ all_cosines [("A", [1])] [1], spGt p m = false) ∧
      (∀ p ∈ all_cosines [("A", [1])] [1], ∃ q, p.1 = some q) ∧
      ∀ p ∈ all_cosines [("A", [1])] [1], ∀ qp qm, p.1 = some qp → m.1 = some qm →
        qp ≤ qm := by
  refine ⟨⟨by simp, by norm_num [sumSqQ]⟩, ?_⟩
  exact c2_top1_max [("A", [1])] [1] (by simp)
    (by
      intro p hp
      rw [List.mem_singleton] at hp
      subst hp
      norm_num [sumSqQ])
    (by norm_num [sumSqQ])

/-- Counterexample to claim C2 as stated: the category table
`{"A": [1], "B": [1]}` queried with `[1]` scores both users `1.0` — a tie —
yet `classify` under the default top-1 predicate returns user `"B"`, the
greatest `(score, user)` tuple, not `"A"`, the first user encountered in the
stable iteration order of `all_cosines`: ties ARE broken by comparing the
score tuples / user identifiers. -/
theorem c2_counterexample :
    all_cosines [("A", [1]), ("B", [1])] [1] = [(some 1, "A"), (some 1, "B")] ∧
    classify [("A", [1]), ("B", [1])] [1] default_predicate = some [(some 1, "B")] := by
  have e1 : all_cosines [("A", [1]), ("B", [1])] [1] = [(some 1, "A"), (some 1, "B")] := by
    simp [all_cosines, cosQ_1_1]
  refine ⟨e1, ?_⟩
  show default_predicate (all_cosines [("A", [1]), ("B", [1])] [1]) = _
  rw [e1]
  have hgt : spGt ((some 1 : Option ℚ), "B") (some 1, "A") = true := by
    rw [spGt_char rfl rfl]
    rw [if_pos rfl]
    decide
  simp [default_predicate, pymax, pymaxStep, hgt]

/-- Claim C3 (corrected): when either vector has zero Euclidean norm the
source divides by zero — numpy evaluates the resulting `0 / 0.0` to NaN
silently (modeled `none`); there is no `DegenerateVector` failure and no
zero-similarity convention. -/
theorem c3_zero_norm_nan (v w : List ℤ) (h : sumSqQ v = 0 ∨ sumSqQ w = 0) :
    cosine_similarity v w = none :=
  cosine_similarity_none h

/-- Witness for the C3 theorem at the degenerate pair `([0], [1])`. -/
theorem c3_witness :
    (sumSqQ [0] = 0 ∨ sumSqQ [1] = 0) ∧ cosine_similarity [0] [1] = none :=
  ⟨Or.inl (by norm_num [sumSqQ]), c3_zero_norm_nan [0] [1] (Or.inl (by norm_num [sumSqQ]))⟩

/-- Counterexample to claim C3 as stated: at the zero-norm pair `([0], [1])`
the similarity computation produces the undefined NaN value (`none`) — in
particular it does not return the zero-similarity convention `some 0`. -/
theorem c3_counterexample :
    cosine_similarity [0] [1] = none ∧ cosine_similarity [0] [1] ≠ some 0 := by
  have h : cosine_similarity [0] [1] = none :=
    cosine_similarity_none (Or.inl (by norm_num [sumSqQ]))
  exact ⟨h, by simp [h]⟩

/-! ### N-gram extraction counts (claim C5) -/

theorem n_gram_nil (k : ℕ) : n_gram ([] : List String) k = [] := by
  by_cases h : k = 0
  · simp [n_gram, h]
  · have h1 : 1 - k = 0 := by omega
    simp [n_gram, h, h1]

theorem all_grams_nil (n : ℕ) : all_grams ([] : List String) n = [] := by
  simp [all_grams, n_gram_nil]

/-- Claim C5 (confirmed): for `k ≥ 1`, order-`k` extraction yields exactly
`len(t) - k + 1` sliding windows of size `k` when `len(t) ≥ k` and none when
`len(t) < k`; `all_grams` concatenates the orders `1..n` in order; and the
empty token sequence yields an empty collection for every order. -/
theorem c5_ngram_counts (t : List String) (k n : ℕ) (hk : 1 ≤ k) :
    (k ≤ t.length → (n_gram t k).length = t.length - k + 1) ∧
    (t.length < k → n_gram t k = []) ∧
    (∀ g ∈ n_gram t k, g.length = k) ∧
    all_grams t (n + 1) = all_grams t n ++ n_gram t (n + 1) ∧
    all_grams ([] : List String) n = [] ∧
    n_gram ([] : List String) k = [] := by
  have hk0 : k ≠ 0 := by omega
  refine ⟨?_, ?_, ?_, ?_, all_grams_nil n, n_gram_nil k⟩
  · intro hle
    simp only [n_gram, hk0, if_false, List.length_map, List.length_range]
    omega
  · intro hlt
    have h1 : t.length + 1 - k = 0 := by omega
    simp [n_gram, hk0, h1]
  · intro g hg
    simp only [n_gram, hk0, if_false] at hg
    obtain ⟨i, hi, rfl⟩ := List.mem_map.mp hg
    rw [List.mem_range] at hi
    rw [List.length_take, List.length_drop]
    omega
  · unfold all_grams
    rw [List.range_succ, List.map_append, List.flatten_append]
    simp

/-- Witness for the C5 theorem at `t = ["a","b","c"]`, `k = 2`, `n = 1`. -/
theorem c5_witness :
    1 ≤ 2 ∧
    ((2 ≤ (["a", "b", "c"] : List String).length →
        (n_gram ["a", "b", "c"] 2).length = (["a", "b", "c"] : List String).length - 2 + 1) ∧
      ((["a", "b", "c"] : List String).length < 2 → n_gram ["a", "b", "c"] 2 = []) ∧
      (∀ g ∈ n_gram ["a", "b", "c"] 2, g.length = 2) ∧
      all_grams ["a", "b", "c"] (1 + 1)
        = all_grams ["a", "b", "c"] 1 ++ n_gram ["a", "b", "c"] (1 + 1) ∧
      all_grams ([] : List String) 1 = [] ∧
      n_gram ([] : List String) 2 = []) :=
  ⟨by omega, c5_ngram_counts ["a", "b", "c"] 2 1 (by omega)⟩

/-! ### Index-table lemmas (claims C6, C4, C9) -/

theorem indexPairs_length (gs : List (List String)) : ∀ n, (indexPairs gs n).length = gs.length := by
  induction gs with
  | nil => intro n; rfl
  | cons g0 gs ih => intro n; simp [indexPairs, ih]

theorem indexPairs_lookup_bounds (gs : List (List String)) :
    ∀ n g i, tableLookup (indexPairs gs n) g = some i → n ≤ i ∧ i < n + gs.length := by
  induction gs with
  | nil => intro n g i h; simp [indexPairs, tableLookup] at h
  | cons g0 gs ih =>
    intro n g i h
    unfold indexPairs tableLookup at h
    rw [List.find?_cons] at h
    cases hb : (g0 == g) with
    | true =>
      rw [hb] at h
      have : n = i := Option.some.inj h
      subst this
      simp only [List.length_cons]
      omega
    | false =>
      rw [hb] at h
      have h2 : tableLookup (indexPairs gs (n + 1)) g = some i := h
      have := ih (n + 1) g i h2
      simp only [List.length_cons]
      omega

theorem indexPairs_lookup_inj (gs : List (List String)) :
    ∀ n g1 g2 i, tableLookup (indexPairs gs n) g1 = some i →
      tableLookup (indexPairs gs n) g2 = some i → g1 = g2 := by
  induction gs with
  | nil => intro n g1 g2 i h1 _; simp [indexPairs, tableLookup] at h1
  | cons g0 gs ih =>
    intro n g1 g2 i h1 h2
    unfold indexPairs tableLookup at h1 h2
    rw [List.find?_cons] at h1 h2
    cases hb1 : (g0 == g1) with
    | true =>
      rw [hb1] at h1
      have hi1 : n = i := Option.some.inj h1
      cases hb2 : (g0 == g2) with
      | true => exact (eq_of_beq hb1).symm.trans (eq_of_beq hb2)
      | false =>
        rw [hb2] at h2
        have := indexPairs_lookup_bounds gs (n + 1) g2 i h2
        omega
    | false =>
      rw [hb1] at h1
      cases hb2 : (g0 == g2) with
      | true =>
        rw [hb2] at h2
        have hi2 : n = i := Option.some.inj h2
        have := indexPairs_lookup_bounds gs (n + 1) g1 i h1
        omega
      | false =>
        rw [hb2] at h2
        exact ih (n + 1) g1 g2 i h1 h2

theorem indexPairs_lookup_mem (gs : List (List String)) :
    ∀ n g, g ∈ gs → ∃ i, tableLookup (indexPairs gs n) g = some i := by
  induction gs with
  | nil => intro n g hg; simp at hg
  | cons g0 gs ih =>
    intro n g hg
    unfold indexPairs tableLookup
    rw [List.find?_cons]
    cases hb : (g0 == g) with
    | true => exact ⟨n, rfl⟩
    | false =>
      rcases List.mem_cons.mp hg with rfl | hgs
      · simp at hb
      · exact ih (n + 1) g hgs

theorem indexPairs_lookup_surj (gs : List (List String)) :
    ∀ n, gs.Nodup → ∀ i, n ≤ i → i < n + gs.length →
      ∃ g, g ∈ gs ∧ tableLookup (indexPairs gs n) g = some i := by
  induction gs with
  | nil => intro n _ i h1 h2; simp at h2; omega
  | cons g0 gs ih =>
    intro n hnodup i h1 h2
    by_cases hi : i = n
    · subst hi
      refine ⟨g0, List.mem_cons_self g0 gs, ?_⟩
      unfold indexPairs tableLookup
      rw [List.find?_cons]
      have hb : (g0 == g0) = true := by simp
      rw [hb]
      rfl
    · have hlen : i < (n + 1) + gs.length := by simp at h2; omega
      obtain ⟨g, hg, hlook⟩ := ih (n + 1) (List.nodup_cons.mp hnodup).2 i (by omega) hlen
      refine ⟨g, List.mem_cons_of_mem g0 hg, ?_⟩
      unfold indexPairs tableLookup
      rw [List.find?_cons]
      have hne : g0 ≠ g := fun hc => (List.nodup_cons.mp hnodup).1 (hc ▸ hg)
      have hb : (g0 == g) = false := by
        rw [beq_eq_false_iff_ne]
        exact hne
      rw [hb]
      exact hlook

/-- Claim C6 (confirmed): the vocabulary index built by `build_index_table`
is injective — two grams given the same index are equal — its assigned
indices are exactly the contiguous range `[0, vocabulary_size)`, and the
empty corpus yields the zero-size table. -/
theorem c6_index_table (words : List String) :
    (∀ g1 g2 i, tableLookup (build_index_table words) g1 = some i →
      tableLookup (build_index_table words) g2 = some i → g1 = g2) ∧
    (∀ i, (∃ g, tableLookup (build_index_table words) g = some i) ↔
      i < (build_index_table words).length) ∧
    build_index_table [] = [] := by
  refine ⟨?_, ?_, ?_⟩
  · intro g1 g2 i h1 h2
    exact indexPairs_lookup_inj _ 0 g1 g2 i h1 h2
  · intro i
    constructor
    · rintro ⟨g, hg⟩
      have hb := indexPairs_lookup_bounds _ 0 g i hg
      rw [build_index_table, indexPairs_length]
      omega
    · intro hi
      rw [build_index_table, indexPairs_length] at hi
      obtain ⟨g, _, hg⟩ := indexPairs_lookup_surj ((all_grams words 3).dedup) 0
        (List.nodup_dedup _) i (Nat.zero_le i) (by simpa using hi)
      exact ⟨g, hg⟩
  · rfl

/-- Witness for the C6 theorem on the corpus `["a", "b"]`: the gram `["a"]`
is assigned index 0, and index 1 (within range) is assigned to some gram. -/
theorem c6_witness :
    tableLookup (build_index_table ["a", "b"]) ["a"] = some 0 ∧
    ∃ g, tableLookup (build_index_table ["a", "b"]) g = some 1 := by
  refine ⟨by decide, ?_⟩
  exact ((c6_index_table ["a", "b"]).2.1 1).mpr (by decide)

/-! ### Vectorizer lemmas (claims C4 and C9) -/

theorem getD_set_self {v : List ℤ} {j : ℕ} (h : j < v.length) (x : ℤ) :
    (v.set j x).getD j 0 = x := by
  rw [List.getD_eq_getElem?_getD, List.getElem?_set, if_pos rfl, if_pos h]
  rfl

theorem getD_set_other {v : List ℤ} {i j : ℕ} (h : j ≠ i) (x : ℤ) :
    (v.set j x).getD i 0 = v.getD i 0 := by
  rw [List.getD_eq_getElem?_getD, List.getElem?_set, if_neg h, ← List.getD_eq_getElem?_getD]

theorem getD_replicate_zero (n i : ℕ) : (List.replicate n (0 : ℤ)).getD i 0 = 0 := by
  rw [List.getD_eq_getElem?_getD, List.getElem?_replicate]
  by_cases h : i < n
  · rw [if_pos h]
    rfl
  · rw [if_neg h]
    rfl

theorem btv_fold_none (table : List (List String × ℕ)) (gs : List (List String)) :
    ∀ v : List ℤ, (∃ g ∈ gs, tableLookup table g = none) →
      List.foldlM (btvStep table) v gs = none := by
  induction gs with
  | nil =>
    rintro v ⟨g, hg, _⟩
    simp at hg
  | cons a gs ih =>
    rintro v ⟨g, hg, hnone⟩
    rw [List.foldlM_cons]
    cases ha : btvStep table v a with
    | none => simp [ha]
    | some v1 =>
      simp only [ha, Option.bind_eq_bind, Option.some_bind]
      apply ih
      rcases List.mem_cons.mp hg with rfl | hgs
      · exfalso
        unfold btvStep at ha
        rw [hnone] at ha
        exact absurd ha (by simp)
      · exact ⟨g, hgs, hnone⟩

theorem btv_fold_some (table : List (List String × ℕ)) (gs : List (List String)) :
    ∀ v : List ℤ, (∀ g ∈ gs, ∃ j, tableLookup table g = some j ∧ j < v.length) →
      ∃ w, List.foldlM (btvStep table) v gs = some w ∧ w.length = v.length ∧
        ∀ i, w.getD i 0 = v.getD i 0 +
          ((gs.filter (fun g => tableLookup table g == some i)).length : ℤ) := by
  induction gs with
  | nil =>
    intro v _
    exact ⟨v, rfl, rfl, by simp⟩
  | cons a gs ih =>
    intro v h
    obtain ⟨j, hj, hjlt⟩ := h a (List.mem_cons_self a gs)
    have hstep : btvStep table v a = some (v.set j (v.getD j 0 + 1)) := by
      unfold btvStep
      rw [hj]
      simp [hjlt]
    have hlen : (v.set j (v.getD j 0 + 1)).length = v.length := List.length_set v j _
    obtain ⟨w, hw, hwlen, hwget⟩ := ih (v.set j (v.getD j 0 + 1)) (by
      intro g hg
      obtain ⟨j2, hj2, hj2lt⟩ := h g (List.mem_cons_of_mem a hg)
      exact ⟨j2, hj2, by rw [hlen]; exact hj2lt⟩)
    refine ⟨w, ?_, by rw [hwlen, hlen], ?_⟩
    · rw [List.foldlM_cons, hstep]
      simpa using hw
    · intro i
      rw [hwget i, List.filter_cons]
      by_cases hji : j = i
      · subst hji
        have hcond : (tableLookup table a == some j) = true := by
          rw [hj]
          simp
        rw [if_pos hcond, List.length_cons, getD_set_self hjlt]
        push_cast
        ring
      · have hcond : (tableLookup table a == some i) = false := by
          rw [hj]
          simp
          exact hji
        rw [if_neg (by rw [hcond]; exact Bool.false_ne_true), getD_set_other hji]

/-- For every gram of the build corpus, the built index table assigns an
in-range index. -/
theorem build_index_lookup_mem {corpus g : List String} (h : g ∈ all_grams corpus 3) :
    ∃ i, tableLookup (build_index_table corpus) g = some i ∧
      i < (build_index_table corpus).length := by
  obtain ⟨i, hi⟩ := indexPairs_lookup_mem ((all_grams corpus 3).dedup) 0 g
    (List.mem_dedup.mpr h)
  refine ⟨i, hi, ?_⟩
  have hb := indexPairs_lookup_bounds ((all_grams corpus 3).dedup) 0 g i hi
  rw [build_index_table, indexPairs_length]
  omega

/-- Claim C4 (confirmed): when every extracted gram of `words` is present in
the table built from `corpus`, vectorization succeeds, the vector has the
table's length, and the slot of the gram assigned index `i` holds exactly
that gram's number of occurrences in the extracted multiset (0 when
absent). -/
theorem c4_vector_counts (corpus words : List String)
    (h : ∀ g ∈ all_grams words 3, (tableLookup (build_index_table corpus) g).isSome) :
    ∃ v, build_title_vector (build_index_table corpus) words = some v ∧
      v.length = (build_index_table corpus).length ∧
      ∀ g i, tableLookup (build_index_table corpus) g = some i →
        v.getD i 0 = ((all_grams words 3).count g : ℤ) := by
  have hfold := btv_fold_some (build_index_table corpus) (all_grams words 3)
    (List.replicate (build_index_table corpus).length 0) (by
      intro g hg
      obtain ⟨j, hj⟩ := Option.isSome_iff_exists.mp (h g hg)
      refine ⟨j, hj, ?_⟩
      rw [List.length_replicate]
      have hb := indexPairs_lookup_bounds ((all_grams corpus 3).dedup) 0 g j hj
      rw [build_index_table, indexPairs_length]
      omega)
  obtain ⟨v, hv, hvlen, hvget⟩ := hfold
  refine ⟨v, hv, by rw [hvlen, List.length_replicate], ?_⟩
  intro g i hgi
  rw [hvget i, getD_replicate_zero, zero_add]
  congr 1
  rw [List.count_eq_countP, List.countP_eq_length_filter]
  congr 1
  apply List.filter_congr
  intro g2 hg2
  obtain ⟨j2, hj2⟩ := Option.isSome_iff_exists.mp (h g2 hg2)
  by_cases he : g2 = g
  · subst he
    rw [hgi]
    simp
  · have hne : tableLookup (build_index_table corpus) g2 ≠ some i := fun hc =>
      he (indexPairs_lookup_inj _ 0 g2 g i hc hgi)
    rw [hj2]
    have hji : j2 ≠ i := fun hc => hne (by rw [hj2, hc])
    simp [hji, he]

/-- Witness for the C4 theorem with corpus `["a", "b"]` and words `["a"]`. -/
theorem c4_witness :
    (∀ g ∈ all_grams ["a"] 3, (tableLookup (build_index_table ["a", "b"]) g).isSome) ∧
    ∃ v, build_title_vector (build_index_table ["a", "b"]) ["a"] = some v ∧
      v.length = (build_index_table ["a", "b"]).length ∧
      ∀ g i, tableLookup (build_index_table ["a", "b"]) g = some i →
        v.getD i 0 = ((all_grams ["a"] 3).count g : ℤ) :=
  ⟨by decide, c4_vector_counts ["a", "b"] ["a"] (by decide)⟩

/-- Claim C9 (confirmed): if any extracted gram is absent from the index
table, vectorization fails immediately with the lookup error (`none` models
the `KeyError`) — it does not ignore the gram or resize the vector — and
when the table was built over a corpus whose grams form a superset of the
extracted grams, that error branch is unreachable: vectorization succeeds. -/
theorem c9_out_of_vocab (table : List (List String × ℕ)) (words corpus : List String) :
    ((∃ g ∈ all_grams words 3, tableLookup table g = none) →
      build_title_vector table words = none) ∧
    ((∀ g ∈ all_grams words 3, g ∈ all_grams corpus 3) →
      (build_title_vector (build_index_table corpus) words).isSome) := by
  constructor
  · intro h
    exact btv_fold_none table (all_grams words 3) _ h
  · intro h
    obtain ⟨v, hv, -, -⟩ := btv_fold_some (build_index_table corpus) (all_grams words 3)
      (List.replicate (build_index_table corpus).length 0) (by
        intro g hg
        obtain ⟨i, hi, hilt⟩ := build_index_lookup_mem (h g hg)
        exact ⟨i, hi, by rw [List.length_replicate]; exact hilt⟩)
    unfold build_title_vector
    rw [hv]
    rfl

/-- Witness for the C9 theorem: the empty table rejects `["a"]` (the 1-gram
`("a",)` is out of vocabulary), while the table built over the superset
corpus `["a"]` vectorizes `["a"]` successfully. -/
theorem c9_witness :
    build_title_vector [] ["a"] = none ∧
    (build_title_vector (build_index_table ["a"]) ["a"]).isSome := by
  constructor
  · exact (c9_out_of_vocab [] ["a"] []).1 ⟨["a"], by decide, by decide⟩
  · exact (c9_out_of_vocab (build_index_table ["a"]) ["a"] ["a"]).2 (by decide)

/-! ### Evaluation accounting (claims C7 and C8) -/

theorem tally_fold_predictions (user : String) (preds : List String) : ∀ t : Tally,
    (preds.foldl
      (fun acc p =>
        if p == user then { acc with true_positive := acc.true_positive + 1 }
        else { acc with false_positive := acc.false_positive + 1 }) t)
      = { t with
          true_positive := t.true_positive + (preds.filter (fun p => p == user)).length,
          false_positive :=
            t.false_positive + (preds.filter (fun p => !(p == user))).length } := by
  induction preds with
  | nil => intro t; simp
  | cons p preds ih =>
    intro t
    rw [List.foldl_cons]
    by_cases hb : (p == user) = true
    · rw [if_pos hb, ih]
      simp [List.filter_cons, hb, Tally.mk.injEq]
      omega
    · rw [if_neg hb, ih]
      rw [Bool.not_eq_true] at hb
      simp [List.filter_cons, hb, Tally.mk.injEq]
      omega

theorem tally_fold_rest (user : String) (others : List String) : ∀ t : Tally,
    (others.foldl
      (fun acc np =>
        if np == user then { acc with false_negative := acc.false_negative + 1 }
        else { acc with true_negative := acc.true_negative + 1 }) t)
      = { t with
          false_negative := t.false_negative + (others.filter (fun np => np == user)).length,
          true_negative :=
            t.true_negative + (others.filter (fun np => !(np == user))).length } := by
  induction others with
  | nil => intro t; simp
  | cons p others ih =>
    intro t
    rw [List.foldl_cons]
    by_cases hb : (p == user) = true
    · rw [if_pos hb, ih]
      simp [List.filter_cons, hb, Tally.mk.injEq]
      omega
    · rw [if_neg hb, ih]
      rw [Bool.not_eq_true] at hb
      simp [List.filter_cons, hb, Tally.mk.injEq]
      omega

/-- Claim C7 (confirmed): one evaluation step adds to `true_positive` the
number of predicted users equal to the true label, to `false_positive` the
number of predicted users different from it, to `false_negative` the number
of non-predicted known users equal to it, and to `true_negative` the number
of non-predicted known users different from it; on the concrete scenario —
true user `"X"`, predictions `["X","Z"]`, known users `["X","Y","Z"]` — the
tallies become TP=1, FP=1, FN=0, TN=1. -/
theorem c7_evaluate_step (t : Tally) (user : String) (predictions val_users : List String) :
    (evaluate_step t user predictions val_users).true_positive
      = t.true_positive + (predictions.filter (fun p => p == user)).length ∧
    (evaluate_step t user predictions val_users).false_positive
      = t.false_positive + (predictions.filter (fun p => !(p == user))).length ∧
    (evaluate_step t user predictions val_users).false_negative
      = t.false_negative + ((val_users.dedup.filter
          (fun u => !(predictions.contains u))).filter (fun np => np == user)).length ∧
    (evaluate_step t user predictions val_users).true_negative
      = t.true_negative + ((val_users.dedup.filter
          (fun u => !(predictions.contains u))).filter (fun np => !(np == user))).length ∧
    evaluate_step ⟨0, 0, 0, 0⟩ "X" ["X", "Z"] ["X", "Y", "Z"]
      = ⟨1, 1, 1, 0⟩ := by
  refine ⟨?_, ?_, ?_, ?_, by decide⟩ <;>
    · unfold evaluate_step
      rw [tally_fold_predictions, tally_fold_rest]

/-- Claim C8 (corrected): `print_stats` computes
`precision = TP/(TP+FP)`, `recall = TP/(TP+FN)` and
`F1 = 2·(precision·recall)/(precision+recall)` — all three denominators are
nonzero exactly when `TP > 0`, and then the metrics are returned; when
`TP = 0` (in particular whenever any denominator is zero) a division by zero
is reached and the unhandled `ZeroDivisionError` (modeled `none`)
propagates — no sentinel value is reported. -/
theorem c8_metrics (true_positive true_negative false_negative false_positive total : ℕ) :
    (0 < true_positive →
      print_stats true_positive true_negative false_negative false_positive total
        = some ((true_positive : ℚ) / ((true_positive : ℚ) + (false_positive : ℚ)),
            (true_positive : ℚ) / ((true_positive : ℚ) + (false_negative : ℚ)),
            2 * ((((true_positive : ℚ) / ((true_positive : ℚ) + (false_positive : ℚ)))
                * ((true_positive : ℚ) / ((true_positive : ℚ) + (false_negative : ℚ))))
              / (((true_positive : ℚ) / ((true_positive : ℚ) + (false_positive : ℚ)))
                + ((true_positive : ℚ) / ((true_positive : ℚ) + (false_negative : ℚ))))))) ∧
    (true_positive = 0 →
      print_stats true_positive true_negative false_negative false_positive total = none) := by
  constructor
  · intro h
    have htp : (0 : ℚ) < true_positive := by exact_mod_cast h
    have hfp : (0 : ℚ) ≤ false_positive := by positivity
    have hfn : (0 : ℚ) ≤ false_negative := by positivity
    have h1 : (true_positive : ℚ) + (false_positive : ℚ) ≠ 0 := by
      apply ne_of_gt
      linarith
    have h2 : (true_positive : ℚ) + (false_negative : ℚ) ≠ 0 := by
      apply ne_of_gt
      linarith
    have hprec : (0 : ℚ) < (true_positive : ℚ) / ((true_positive : ℚ) + (false_positive : ℚ)) :=
      div_pos htp (by linarith)
    have hrec : (0 : ℚ) < (true_positive : ℚ) / ((true_positive : ℚ) + (false_negative : ℚ)) :=
      div_pos htp (by linarith)
    have h3 : (true_positive : ℚ) / ((true_positive : ℚ) + (false_positive : ℚ))
        + (true_positive : ℚ) / ((true_positive : ℚ) + (false_negative : ℚ)) ≠ 0 := by
      apply ne_of_gt
      linarith
    simp only [print_stats]
    rw [if_neg h1, if_neg h2, if_neg h3]
  · intro h
    subst h
    simp only [print_stats, Nat.cast_zero, zero_add, zero_div, add_zero]
    by_cases h1 : (false_positive : ℚ) = 0
    · rw [if_pos h1]
    · rw [if_neg h1]
      by_cases h2 : (false_negative : ℚ) = 0
      · rw [if_pos h2]
      · rw [if_neg h2]
        rw [if_pos (by norm_num)]

/-- Witness for the C8 theorem at the tally TP=1, TN=0, FN=1, FP=1. -/
theorem c8_witness :
    0 < 1 ∧
    print_stats 1 0 1 1 2
      = some (((1 : ℕ) : ℚ) / (((1 : ℕ) : ℚ) + ((1 : ℕ) : ℚ)),
          ((1 : ℕ) : ℚ) / (((1 : ℕ) : ℚ) + ((1 : ℕ) : ℚ)),
          2 * (((((1 : ℕ) : ℚ) / (((1 : ℕ) : ℚ) + ((1 : ℕ) : ℚ)))
              * (((1 : ℕ) : ℚ) / (((1 : ℕ) : ℚ) + ((1 : ℕ) : ℚ))))
            / ((((1 : ℕ) : ℚ) / (((1 : ℕ) : ℚ) + ((1 : ℕ) : ℚ)))
              + (((1 : ℕ) : ℚ) / (((1 : ℕ) : ℚ) + ((1 : ℕ) : ℚ)))))) :=
  ⟨by omega, (c8_metrics 1 0 1 1 2).1 (by omega)⟩

/-- Counterexample to claim C8 as stated: on tallies with a zero
denominator — TP=0, FP=5, FN=5 (zero precision and recall make the F1
denominator zero) and the all-zero tally (zero precision denominator) — the
computation produces no sentinel value at all: the division by zero is
unhandled (`none`). -/
theorem c8_counterexample :
    print_stats 0 5 5 5 15 = none ∧ print_stats 0 0 0 0 0 = none := by
  constructor <;> norm_num [print_stats]

/-! ### User-title table lemmas (claim C10) -/

theorem lookupL_addTitle_self (t : List (String × List String)) (us ti : String) :
    lookupL (addTitle t us ti) us = some ((lookupL t us).getD [] ++ [ti]) := by
  induction t with
  | nil => simp [addTitle, lookupL]
  | cons kv t ih =>
    obtain ⟨k, l⟩ := kv
    by_cases hk : k = us
    · subst hk
      simp [addTitle, lookupL, List.find?_cons]
    · have hb : (k == us) = false := by
        rw [beq_eq_false_iff_ne]
        exact hk
      simp only [addTitle, hb, Bool.false_eq_true, if_false]
      simp only [lookupL, List.find?_cons, hb]
      exact ih

theorem lookupL_addTitle_other (t : List (String × List String)) (us ti u : String)
    (h : u ≠ us) : lookupL (addTitle t us ti) u = lookupL t u := by
  induction t with
  | nil =>
    have hb : (us == u) = false := by
      rw [beq_eq_false_iff_ne]
      exact fun hc => h hc.symm
    simp [addTitle, lookupL, List.find?_cons, hb]
  | cons kv t ih =>
    obtain ⟨k, l⟩ := kv
    by_cases hk : k = us
    · subst hk
      have hb : (k == u) = false := by
        rw [beq_eq_false_iff_ne]
        exact fun hc => h hc.symm
      simp [addTitle, lookupL, List.find?_cons, hb]
    · have hb : (k == us) = false := by
        rw [beq_eq_false_iff_ne]
        exact hk
      simp only [addTitle, hb, Bool.false_eq_true, if_false]
      by_cases hku : k = u
      · subst hku
        simp [lookupL, List.find?_cons]
      · have hb2 : (k == u) = false := by
          rw [beq_eq_false_iff_ne]
          exact hku
        simp only [lookupL, List.find?_cons, hb2]
        exact ih

theorem mem_keys_addTitle (t : List (String × List String)) (us ti u : String) :
    u ∈ (addTitle t us ti).map (fun p => p.1) ↔
      u ∈ t.map (fun p => p.1) ∨ u = us := by
  induction t with
  | nil => simp [addTitle]
  | cons kv t ih =>
    obtain ⟨k, l⟩ := kv
    by_cases hk : k = us
    · subst hk
      have hb : (k == k) = true := by simp
      simp only [addTitle, hb, if_true, List.map_cons, List.mem_cons]
      constructor
      · rintro (rfl | hu)
        · exact Or.inl (Or.inl rfl)
        · exact Or.inl (Or.inr hu)
      · rintro ((rfl | hu) | rfl)
        · exact Or.inl rfl
        · exact Or.inr hu
        · exact Or.inl rfl
    · have hb : (k == us) = false := by
        rw [beq_eq_false_iff_ne]
        exact hk
      simp only [addTitle, hb, Bool.false_eq_true, if_false, List.map_cons, List.mem_cons, ih]
      tauto

theorem nodup_keys_addTitle (t : List (String × List String)) (us ti : String)
    (h : (t.map (fun p => p.1)).Nodup) :
    ((addTitle t us ti).map (fun p => p.1)).Nodup := by
  induction t with
  | nil => simp [addTitle]
  | cons kv t ih =>
    obtain ⟨k, l⟩ := kv
    rw [List.map_cons, List.nodup_cons] at h
    by_cases hk : k = us
    · subst hk
      have hb : (k == k) = true := by simp
      simp only [addTitle, hb, if_true, List.map_cons, List.nodup_cons]
      exact h
    · have hb : (k == us) = false := by
        rw [beq_eq_false_iff_ne]
        exact hk
      simp only [addTitle, hb, Bool.false_eq_true, if_false, List.map_cons, List.nodup_cons]
      refine ⟨?_, ih h.2⟩
      rw [mem_keys_addTitle]
      rintro (hc | rfl)
      · exact h.1 hc
      · exact hk rfl

theorem buildT_lookup_some (ps : List (String × String)) : ∀ t u l, lookupL t u = some l →
    lookupL (ps.foldl (fun acc p => addTitle acc p.2 p.1) t) u
      = some (l ++ (ps.filter (fun p => p.2 == u)).map (fun p => p.1)) := by
  induction ps with
  | nil =>
    intro t u l h
    simpa using h
  | cons p ps ih =>
    intro t u l h
    obtain ⟨ti, us⟩ := p
    rw [List.foldl_cons]
    by_cases hu : u = us
    · subst hu
      have h2 : lookupL (addTitle t u ti) u = some (l ++ [ti]) := by
        rw [lookupL_addTitle_self, h]
        rfl
      rw [ih _ _ _ h2]
      have hb : ((ti, u).2 == u) = true := by simp
      simp [List.filter_cons, hb]
    · have h2 : lookupL (addTitle t us ti) u = some l :=
        (lookupL_addTitle_other t us ti u hu).trans h
      rw [ih _ _ _ h2]
      have hb : ((ti, us).2 == u) = false := by
        simp only []
        rw [beq_eq_false_iff_ne]
        exact fun hc => hu hc.symm
      simp [List.filter_cons, hb]

theorem buildT_lookup_none (ps : List (String × String)) : ∀ t u, lookupL t u = none →
    lookupL (ps.foldl (fun acc p => addTitle acc p.2 p.1) t) u
      = if (ps.map (fun p => p.2)).contains u then
          some ((ps.filter (fun p => p.2 == u)).map (fun p => p.1))
        else none := by
  induction ps with
  | nil =>
    intro t u h
    simpa using h
  | cons p ps ih =>
    intro t u h
    obtain ⟨ti, us⟩ := p
    rw [List.foldl_cons]
    by_cases hu : u = us
    · subst hu
      have h2 : lookupL (addTitle t u ti) u = some [ti] := by
        rw [lookupL_addTitle_self, h]
        rfl
      rw [buildT_lookup_some ps _ _ _ h2]
      have hbe : (u == u) = true := by simp
      have hcon : ((((ti, u) :: ps).map (fun p => p.2)).contains u) = true := by
        simp [List.contains_cons]
      rw [hcon, if_pos rfl]
      have hb : ((ti, u).2 == u) = true := by simp
      simp [List.filter_cons, hb]
    · have h2 : lookupL (addTitle t us ti) u = none :=
        (lookupL_addTitle_other t us ti u hu).trans h
      rw [ih _ _ h2]
      have hbu : (u == us) = false := by
        rw [beq_eq_false_iff_ne]
        exact hu
      have hb : ((ti, us).2 == u) = false := by
        simp only []
        rw [beq_eq_false_iff_ne]
        exact fun hc => hu hc.symm
      simp only [List.map_cons, List.contains_cons, hbu, Bool.false_or, List.filter_cons, hb,
        Bool.false_eq_true, if_false]

theorem buildT_keys (ps : List (String × String)) : ∀ t : List (String × List String),
    (((t.map (fun p => p.1)).Nodup →
      ((ps.foldl (fun acc p => addTitle acc p.2 p.1) t).map (fun p => p.1)).Nodup)) ∧
    ∀ u, u ∈ (ps.foldl (fun acc p => addTitle acc p.2 p.1) t).map (fun p => p.1) ↔
      u ∈ t.map (fun p => p.1) ∨ u ∈ ps.map (fun p => p.2) := by
  induction ps with
  | nil =>
    intro t
    refine ⟨id, ?_⟩
    intro u
    simp
  | cons p ps ih =>
    intro t
    obtain ⟨ti, us⟩ := p
    rw [List.foldl_cons]
    constructor
    · intro h
      exact (ih (addTitle t us ti)).1 (nodup_keys_addTitle t us ti h)
    · intro u
      rw [(ih (addTitle t us ti)).2 u, mem_keys_addTitle]
      simp only [List.map_cons, List.mem_cons]
      tauto

theorem lookupTitle_map (t : List (String × List String)) (u : String) :
    lookupTitle (t.map (fun p => (p.1, String.intercalate " " p.2))) u
      = (lookupL t u).map (String.intercalate " ") := by
  induction t with
  | nil => rfl
  | cons kv t ih =>
    obtain ⟨k, l⟩ := kv
    simp only [List.map_cons, lookupTitle, lookupL, List.find?_cons]
    cases hb : (k == u) with
    | true => rfl
    | false => exact ih

/-- Claim C10 (confirmed): for equal-length title and user lists, the
user-to-title table has pairwise-distinct keys which are exactly the users
occurring in the user list — no user is dropped — and each user's value is
the space-separated concatenation of exactly that user's titles in their
original input order. -/
theorem c10_user_titles (raw_titles raw_users : List String)
    (h : raw_titles.length = raw_users.length) :
    ((user_titles_table raw_titles raw_users).map (fun p => p.1)).Nodup ∧
    (∀ u, u ∈ (user_titles_table raw_titles raw_users).map (fun p => p.1) ↔
      u ∈ raw_users) ∧
    ∀ u, u ∈ raw_users →
      lookupTitle (user_titles_table raw_titles raw_users) u
        = some (String.intercalate " "
            (((List.zip raw_titles raw_users).filter (fun p => p.2 == u)).map
              (fun p => p.1))) := by
  have hmap : (List.zip raw_titles raw_users).map (fun p => p.2) = raw_users :=
    List.map_snd_zip raw_titles raw_users (le_of_eq h.symm)
  have hutt : user_titles_table raw_titles raw_users
      = ((List.zip raw_titles raw_users).foldl (fun acc p => addTitle acc p.2 p.1) []).map
          (fun p => (p.1, String.intercalate " " p.2)) := rfl
  have hkeys : (user_titles_table raw_titles raw_users).map (fun p => p.1)
      = ((List.zip raw_titles raw_users).foldl (fun acc p => addTitle acc p.2 p.1) []).map
          (fun p => p.1) := by
    rw [hutt, List.map_map]
    rfl
  obtain ⟨hnodupf, hmemf⟩ := buildT_keys (List.zip raw_titles raw_users) []
  refine ⟨?_, ?_, ?_⟩
  · rw [hkeys]
    exact hnodupf (by simp)
  · intro u
    rw [hkeys, hmemf u, hmap]
    simp
  · intro u hu
    rw [hutt, lookupTitle_map]
    rw [buildT_lookup_none (List.zip raw_titles raw_users) [] u rfl]
    have hcon : ((List.zip raw_titles raw_users).map (fun p => p.2)).contains u = true := by
      rw [hmap]
      exact List.elem_iff.mpr hu
    rw [hcon, if_pos rfl]
    rfl

/-- Witness for the C10 theorem at titles `["s", "t"]` and users
`["u", "u"]`. -/
theorem c10_witness :
    (["s", "t"] : List String).length = (["u", "u"] : List String).length ∧
    ((user_titles_table ["s", "t"] ["u", "u"]).map (fun p => p.1)).Nodup ∧
    (∀ u, u ∈ (user_titles_table ["s", "t"] ["u", "u"]).map (fun p => p.1) ↔
      u ∈ (["u", "u"] : List String)) ∧
    ∀ u, u ∈ (["u", "u"] : List String) →
      lookupTitle (user_titles_table ["s", "t"] ["u", "u"]) u
        = some (String.intercalate " "
            (((List.zip ["s", "t"] ["u", "u"]).filter (fun p => p.2 == u)).map
              (fun p => p.1))) := by
  have hmain := c10_user_titles ["s", "t"] ["u", "u"] rfl
  exact ⟨rfl, hmain.1, hmain.2.1, hmain.2.2⟩
